import Mathlib

/-!
Verification of the pony-placement core (board/attack model and the
backtracking search) of the repository.

The embedded definitions mirror the Python source:
* `PONY_MOVES` — the 16 signed leap offsets (knight + camel).
* `Board` — board size plus the ordered list of occupied coordinates,
  with `Board.is_safe`, `Board.place` and `Board.attacked_positions`.
* `bt` — the inner `backtrack(start, need, occ)` recursion of
  `find_one_solution`, written with an explicit fuel argument equal to
  `N*N - start` (the number of loop iterations remaining in
  `for i in range(start, N*N)`), so the function is structurally
  recursive and computable.  Continuing the Python `for` loop after a
  failed or skipped candidate is modelled by the tail call on
  `start + 1` with the same `need` and `occ`.
* `find_one_solution` — the public search entry point.

The mutable Python `Board` is modelled functionally: `place` returns the
updated board, `attacked_positions` is a pure function of the state.
-/

namespace Pony

/-- A coordinate on the board: a pair of integers `(x, y)`. -/
abbrev Coord := Int × Int

/-- The 16 signed leap offsets: knight moves plus camel (long-knight) moves. -/
def PONY_MOVES : List (Int × Int) :=
  [(1, 2), (2, 1), (-1, 2), (-2, 1), (1, -2), (2, -1), (-1, -2), (-2, -1),
   (1, 3), (3, 1), (-1, 3), (-3, 1), (1, -3), (3, -1), (-1, -3), (-3, -1)]

/-- The unsigned attack offsets used by `is_safe`:
the list `[(1, 2), (2, 1), (1, 3), (3, 1)]` from the source. -/
def attackOffsets : List (Nat × Nat) := [(1, 2), (2, 1), (1, 3), (3, 1)]

/-- Board state: size `N` and the ordered sequence of occupied coordinates. -/
structure Board where
  size : Int
  occupied : List Coord
deriving DecidableEq

/-- One step of the inner loop of `attacked_positions`: add the cell reached
from `p` by offset `d` to the accumulated set when it is in bounds. -/
def attackStep (sz : Int) (p : Coord) (acc : Finset Coord) (d : Int × Int) :
    Finset Coord :=
  if 0 ≤ p.1 + d.1 ∧ p.1 + d.1 < sz ∧ 0 ≤ p.2 + d.2 ∧ p.2 + d.2 < sz then
    insert (p.1 + d.1, p.2 + d.2) acc
  else
    acc

/-- The set of attacked positions: for every occupied coordinate and every
leap offset, the target cell when it lies inside the board.  The Python
method builds a `set` with two nested loops; the returned `list(attacks)`
carries exactly this set. -/
def Board.attacked_positions (b : Board) : Finset Coord :=
  b.occupied.foldl (fun acc p => PONY_MOVES.foldl (attackStep b.size p) acc) ∅

/-- Safety test from the source: `pos` is unsafe when it is already occupied,
or when some occupied coordinate is at unsigned offset
`(|dx|, |dy|) ∈ attackOffsets` from `pos`. -/
def Board.is_safe (b : Board) (pos : Coord) : Bool :=
  if pos ∈ b.occupied then
    false
  else
    b.occupied.all fun occ =>
      let dx := (pos.1 - occ.1).natAbs
      let dy := (pos.2 - occ.2).natAbs
      decide ((dx, dy) ∉ attackOffsets)

/-- Place a pony at `pos` when the position is safe; otherwise leave the
board unchanged (the Python method silently does nothing). -/
def Board.place (b : Board) (pos : Coord) : Board :=
  if b.is_safe pos then { b with occupied := b.occupied ++ [pos] } else b

/-- Decode a scan index into a cell, exactly `divmod(i, N)`:
`x = i / N`, `y = i % N`. -/
def decode (N : Nat) (i : Nat) : Coord := (((i / N : Nat) : Int), ((i % N : Nat) : Int))

/-- The `backtrack(start, need, occ)` recursion of `find_one_solution`.
`fuel` is the number of remaining loop iterations, `N*N - start`; every
call site maintains this relation.  At each step with positive fuel the
candidate cell `decode N start` is tested against the current board
(`Board(N, occ).is_safe((x, y))` in the source); on success the cell is
committed (`occ ++ [cell]`) and the search recurses with `need - 1` from
`start + 1`; when the recursive call fails, the commit is undone and the
scan continues at `start + 1`.  Success returns the full occupied list. -/
def bt (N : Nat) : Nat → Int → Nat → List Coord → Option (List Coord)
  | 0, need, _, occ => if need = 0 then some occ else none
  | fuel + 1, need, start, occ =>
    if need = 0 then
      some occ
    else if (Board.mk (N : Int) occ).is_safe (decode N start) then
      match bt N fuel (need - 1) (start + 1) (occ ++ [decode N start]) with
      | some r => some r
      | none => bt N fuel need (start + 1) occ
    else
      bt N fuel need (start + 1) occ

/-- The public search: seed the board with a copy of `initial_coords`, run
`backtrack(0, L, occ)` and, on success, return the committed cells beyond
the initial ones (`occ[len(initial_coords):]`); otherwise return `none`. -/
def find_one_solution (initial_coords : List Coord) (N : Nat) (L : Int) :
    Option (List Coord) :=
  match bt N (N * N) L 0 initial_coords with
  | some occ => some (occ.drop initial_coords.length)
  | none => none

/-! ### Specification-level predicates -/

/-- Two cells attack each other: their unsigned offset is in `attackOffsets`. -/
def attackPair (p q : Coord) : Prop :=
  ((p.1 - q.1).natAbs, (p.2 - q.2).natAbs) ∈ attackOffsets

instance (p q : Coord) : Decidable (attackPair p q) := by
  unfold attackPair; infer_instance

/-- A list of cells is pairwise safe: no two of them attack each other. -/
def pairwiseSafe (l : List Coord) : Prop :=
  l.Pairwise fun p q => ¬ attackPair p q

instance (l : List Coord) : Decidable (pairwiseSafe l) := by
  unfold pairwiseSafe; infer_instance

/-- A duplicate-free, pairwise-safe list of cells. -/
def goodList (l : List Coord) : Prop := l.Nodup ∧ pairwiseSafe l

instance (l : List Coord) : Decidable (goodList l) := by
  unfold goodList; infer_instance

/-- The cell lies within `[0, N) × [0, N)`. -/
def inBounds (N : Nat) (c : Coord) : Prop :=
  0 ≤ c.1 ∧ c.1 < (N : Int) ∧ 0 ≤ c.2 ∧ c.2 < (N : Int)

instance (N : Nat) (c : Coord) : Decidable (inBounds N c) := by
  unfold inBounds; infer_instance

/-- `SafeExt occ ext`: the cells of `ext`, added in order on top of `occ`,
are each safe against everything placed before them. -/
def SafeExt : List Coord → List Coord → Prop
  | _, [] => True
  | occ, c :: rest =>
    (c ∉ occ ∧ ∀ q ∈ occ, ¬ attackPair c q) ∧ SafeExt (occ ++ [c]) rest

/-- Row-major index of a cell, as an integer: `x * N + y`. -/
def cellIdx (N : Nat) (c : Coord) : Int := c.1 * (N : Int) + c.2

/-- Row-major index of a cell, as a natural number (for in-bounds cells). -/
def cellIdxNat (N : Nat) (c : Coord) : Nat := c.1.toNat * N + c.2.toNat

/-- Lexicographic order (non-strict) on lists of indices. -/
def lexLe : List Nat → List Nat → Prop
  | [], _ => True
  | _ :: _, [] => False
  | a :: as, b :: bs => a < b ∨ (a = b ∧ lexLe as bs)

/-- The scan indices of a list of cells, sorted increasingly: the canonical
index-sequence representation of a combination of cells. -/
def sortedIdx (N : Nat) (S : List Coord) : List Nat :=
  List.insertionSort (· ≤ ·) (S.map (cellIdxNat N))

end Pony

namespace Pony

/-! ### Basic lemmas -/

theorem attackPair_symm {p q : Coord} (h : attackPair p q) : attackPair q p := by
  unfold attackPair at *
  have h1 : (q.1 - p.1).natAbs = (p.1 - q.1).natAbs := by omega
  have h2 : (q.2 - p.2).natAbs = (p.2 - q.2).natAbs := by omega
  rw [h1, h2]
  exact h

theorem is_safe_iff (b : Board) (pos : Coord) :
    b.is_safe pos = true ↔ pos ∉ b.occupied ∧ ∀ q ∈ b.occupied, ¬ attackPair pos q := by
  unfold Board.is_safe
  split
  · simp_all
  · simp_all [List.all_eq_true, attackPair]

theorem is_safe_eq_false_iff (b : Board) (pos : Coord) :
    b.is_safe pos = false ↔ pos ∈ b.occupied ∨ ∃ q ∈ b.occupied, attackPair pos q := by
  rw [Bool.eq_false_iff, Ne, is_safe_iff]
  constructor
  · intro h
    by_cases hm : pos ∈ b.occupied
    · exact Or.inl hm
    · right
      by_contra hq
      push_neg at hq
      exact h ⟨hm, hq⟩
  · rintro (hm | ⟨q, hq, ha⟩) ⟨h1, h2⟩
    · exact h1 hm
    · exact h2 q hq ha

theorem safeExt_pairwiseSafe :
    ∀ (ext occ : List Coord), pairwiseSafe occ → SafeExt occ ext →
      pairwiseSafe (occ ++ ext) := by
  intro ext
  induction ext with
  | nil => intro occ h _; simpa using h
  | cons c rest ih =>
    intro occ hocc hext
    obtain ⟨⟨hmem, hatk⟩, hrest⟩ := hext
    have hocc' : pairwiseSafe (occ ++ [c]) := by
      unfold pairwiseSafe at *
      rw [List.pairwise_append]
      refine ⟨hocc, by simp, ?_⟩
      intro a ha b hb
      simp only [List.mem_singleton] at hb
      subst hb
      intro hab
      exact hatk a ha (attackPair_symm hab)
    have := ih (occ ++ [c]) hocc' hrest
    rwa [List.append_assoc, List.singleton_append] at this

theorem safeExt_nodup_fresh :
    ∀ (ext occ : List Coord), SafeExt occ ext →
      ext.Nodup ∧ ∀ c ∈ ext, c ∉ occ := by
  intro ext
  induction ext with
  | nil => intro occ _; simp
  | cons c rest ih =>
    intro occ hext
    obtain ⟨⟨hmem, _⟩, hrest⟩ := hext
    obtain ⟨hnd, hfresh⟩ := ih (occ ++ [c]) hrest
    constructor
    · rw [List.nodup_cons]
      refine ⟨fun hc => ?_, hnd⟩
      exact hfresh c hc (by simp)
    · intro x hx
      rcases List.mem_cons.mp hx with rfl | hx'
      · exact hmem
      · intro hxo
        exact hfresh x hx' (by simp [hxo])

theorem validExt_safeExt :
    ∀ (S occ : List Coord), S.Nodup → (∀ c ∈ S, c ∉ occ) →
      pairwiseSafe (occ ++ S) → SafeExt occ S := by
  intro S
  induction S with
  | nil => intro occ _ _ _; trivial
  | cons c rest ih =>
    intro occ hnd hfresh hps
    obtain ⟨hc_rest, hnd'⟩ := List.nodup_cons.mp hnd
    have hcross := (List.pairwise_append.mp hps).2.2
    refine ⟨⟨hfresh c (by simp), ?_⟩, ?_⟩
    · intro q hq hatk
      exact hcross q hq c (by simp) (attackPair_symm hatk)
    · apply ih
      · exact hnd'
      · intro x hx
        simp only [List.mem_append, List.mem_singleton]
        rintro (h | rfl)
        · exact hfresh x (by simp [hx]) h
        · exact hc_rest hx
      · rwa [List.append_assoc, List.singleton_append]

/-! ### Decode / index arithmetic -/

theorem pos_of_lt_sq {N i : Nat} (h : i < N * N) : 0 < N := by
  rcases Nat.eq_zero_or_pos N with rfl | hN
  · omega
  · exact hN

theorem decode_inBounds {N i : Nat} (h : i < N * N) : inBounds N (decode N i) := by
  have hN : 0 < N := pos_of_lt_sq h
  have hdiv : i / N < N := (Nat.div_lt_iff_lt_mul hN).mpr h
  have hmod : i % N < N := Nat.mod_lt i hN
  unfold inBounds decode
  exact ⟨Int.ofNat_nonneg _, Int.ofNat_lt.mpr hdiv, Int.ofNat_nonneg _, Int.ofNat_lt.mpr hmod⟩

theorem cellIdxNat_decode (N i : Nat) : cellIdxNat N (decode N i) = i := by
  unfold cellIdxNat decode
  simp only [Int.toNat_ofNat]
  exact Nat.div_add_mod' i N

theorem cellIdx_decode (N i : Nat) : cellIdx N (decode N i) = (i : Int) := by
  unfold cellIdx decode
  dsimp only
  exact_mod_cast Nat.div_add_mod' i N

theorem decode_cellIdxNat {N : Nat} {c : Coord} (hN : 0 < N) (h : inBounds N c) :
    decode N (cellIdxNat N c) = c := by
  obtain ⟨x, y⟩ := c
  obtain ⟨h1, h2, h3, h4⟩ := h
  have hy : y.toNat < N := by omega
  unfold decode cellIdxNat
  rw [Nat.mul_comm x.toNat N]
  have hdiv : (N * x.toNat + y.toNat) / N = x.toNat := by
    rw [Nat.mul_add_div hN, Nat.div_eq_of_lt hy]
    omega
  have hmod : (N * x.toNat + y.toNat) % N = y.toNat := by
    rw [Nat.mul_add_mod, Nat.mod_eq_of_lt hy]
  rw [hdiv, hmod]
  simp only [Prod.mk.injEq]
  constructor <;> omega

theorem cellIdxNat_lt {N : Nat} {c : Coord} (h : inBounds N c) : cellIdxNat N c < N * N := by
  obtain ⟨x, y⟩ := c
  obtain ⟨h1, h2, h3, h4⟩ := h
  have hx : x.toNat < N := by omega
  have hy : y.toNat < N := by omega
  unfold cellIdxNat
  calc x.toNat * N + y.toNat < (x.toNat + 1) * N := by
        rw [Nat.add_mul, Nat.one_mul]; omega
    _ ≤ N * N := Nat.mul_le_mul_right N hx

end Pony

namespace Pony

/-! ### Search lemmas -/

theorem bt_need_zero (N : Nat) (fuel : Nat) (start : Nat) (occ : List Coord) :
    bt N fuel 0 start occ = some occ := by
  cases fuel <;> simp [bt]

theorem find_none_iff (initial : List Coord) (N : Nat) (L : Int) :
    find_one_solution initial N L = none ↔ bt N (N * N) L 0 initial = none := by
  unfold find_one_solution
  cases h : bt N (N * N) L 0 initial <;> simp

theorem find_some_iff (initial : List Coord) (N : Nat) (L : Int) (R : List Coord) :
    find_one_solution initial N L = some R ↔
      ∃ r, bt N (N * N) L 0 initial = some r ∧ R = r.drop initial.length := by
  unfold find_one_solution
  cases h : bt N (N * N) L 0 initial <;> simp [eq_comm]

/-- Soundness invariant of the backtracking recursion: a successful result
is the input occupancy extended by the decoded cells of a strictly
increasing list of scan indices taken from the scanned range, each cell
safe against everything placed before it. -/
theorem bt_sound (N : Nat) :
    ∀ (fuel : Nat) (need : Int) (start : Nat) (occ r : List Coord),
      bt N fuel need start occ = some r →
      ∃ idxs : List Nat,
        r = occ ++ idxs.map (decode N) ∧
        (idxs.length : Int) = need ∧
        idxs.Pairwise (· < ·) ∧
        (∀ i ∈ idxs, start ≤ i ∧ i < start + fuel) ∧
        SafeExt occ (idxs.map (decode N)) := by
  intro fuel
  induction fuel with
  | zero =>
    intro need start occ r h
    simp only [bt] at h
    split at h
    · obtain rfl : occ = r := by injection h
      rename_i hneed
      exact ⟨[], by simp, by simp [hneed], by simp, by simp, trivial⟩
    · exact absurd h (by simp)
  | succ fuel ih =>
    intro need start occ r h
    simp only [bt] at h
    split at h
    · obtain rfl : occ = r := by injection h
      rename_i hneed
      exact ⟨[], by simp, by simp [hneed], by simp, by simp, trivial⟩
    · rename_i hneed
      split at h
      · rename_i hsafe
        cases hinner : bt N fuel (need - 1) (start + 1) (occ ++ [decode N start]) with
        | some r0 =>
          rw [hinner] at h
          simp only [Option.some.injEq] at h
          subst h
          obtain ⟨idxs, h1, h2, h3, h4, h5⟩ :=
            ih (need - 1) (start + 1) (occ ++ [decode N start]) r0 hinner
          refine ⟨start :: idxs, ?_, ?_, ?_, ?_, ?_⟩
          · rw [h1, List.append_assoc, List.singleton_append, List.map_cons]
          · simp only [List.length_cons]
            push_cast
            omega
          · refine List.Pairwise.cons ?_ h3
            intro j hj
            exact Nat.lt_of_succ_le (h4 j hj).1
          · intro i hi
            rcases List.mem_cons.mp hi with rfl | hi'
            · omega
            · have := h4 i hi'
              omega
          · rw [List.map_cons]
            have hs := (is_safe_iff (Board.mk (N : Int) occ) (decode N start)).mp hsafe
            exact ⟨hs, h5⟩
        | none =>
          rw [hinner] at h
          obtain ⟨idxs, h1, h2, h3, h4, h5⟩ := ih need (start + 1) occ r h
          refine ⟨idxs, h1, h2, h3, ?_, h5⟩
          intro i hi
          have := h4 i hi
          omega
      · obtain ⟨idxs, h1, h2, h3, h4, h5⟩ := ih need (start + 1) occ r h
        refine ⟨idxs, h1, h2, h3, ?_, h5⟩
        intro i hi
        have := h4 i hi
        omega

end Pony

namespace Pony

/-- Completeness of the backtracking recursion: whenever a strictly
increasing list of in-range scan indices decodes to a safe extension of
the current occupancy with exactly `need` cells, the search succeeds. -/
theorem bt_complete (N : Nat) :
    ∀ (fuel : Nat) (need : Int) (start : Nat) (occ : List Coord) (js : List Nat),
      start + fuel = N * N →
      js.Pairwise (· < ·) →
      (∀ j ∈ js, start ≤ j ∧ j < N * N) →
      (js.length : Int) = need →
      SafeExt occ (js.map (decode N)) →
      ∃ r, bt N fuel need start occ = some r := by
  intro fuel
  induction fuel with
  | zero =>
    intro need start occ js hrel hsorted hrange hlen _
    by_cases hneed : need = 0
    · exact ⟨occ, by simp [bt, hneed]⟩
    · exfalso
      cases js with
      | nil => simp at hlen; exact hneed hlen.symm
      | cons j js' =>
        have := hrange j (by simp)
        omega
  | succ fuel ih =>
    intro need start occ js hrel hsorted hrange hlen hsafe
    by_cases hneed : need = 0
    · exact ⟨occ, by simp [bt, hneed]⟩
    · cases js with
      | nil => exact absurd (by simpa using hlen.symm) hneed
      | cons j js' =>
        have hjr := hrange j (by simp)
        have hlen' : (js'.length : Int) = need - 1 := by
          simp only [List.length_cons] at hlen
          push_cast at hlen ⊢
          omega
        rcases eq_or_lt_of_le hjr.1 with rfl | hlt
        · -- the head of the witness is exactly the current candidate
          simp only [List.map_cons] at hsafe
          obtain ⟨⟨hmem, hatk⟩, hrest⟩ := hsafe
          have htrue : (Board.mk (N : Int) occ).is_safe (decode N start) = true :=
            (is_safe_iff _ _).mpr ⟨hmem, hatk⟩
          have hrange' : ∀ i ∈ js', start + 1 ≤ i ∧ i < N * N := by
            intro i hi
            have h1 := hrange i (by simp [hi])
            have h2 := List.rel_of_pairwise_cons hsorted hi
            omega
          obtain ⟨r0, hr0⟩ := ih (need - 1) (start + 1) (occ ++ [decode N start]) js'
            (by omega) (List.Pairwise.of_cons hsorted) hrange' hlen' hrest
          exact ⟨r0, by simp [bt, hneed, htrue, hr0]⟩
        · -- the current candidate precedes the whole witness
          have hrange' : ∀ i ∈ j :: js', start + 1 ≤ i ∧ i < N * N := by
            intro i hi
            rcases List.mem_cons.mp hi with rfl | hi'
            · exact ⟨hlt, hjr.2⟩
            · have h1 := hrange i (by simp [hi'])
              have h2 := List.rel_of_pairwise_cons hsorted hi'
              omega
          by_cases hsafe0 : (Board.mk (N : Int) occ).is_safe (decode N start) = true
          · cases hinner : bt N fuel (need - 1) (start + 1) (occ ++ [decode N start]) with
            | some r0 => exact ⟨r0, by simp [bt, hneed, hsafe0, hinner]⟩
            | none =>
              obtain ⟨r, hr⟩ := ih need (start + 1) occ (j :: js')
                (by omega) hsorted hrange' hlen hsafe
              exact ⟨r, by simp [bt, hneed, hsafe0, hinner, hr]⟩
          · obtain ⟨r, hr⟩ := ih need (start + 1) occ (j :: js')
              (by omega) hsorted hrange' hlen hsafe
            exact ⟨r, by simp [bt, hneed, hsafe0, hr]⟩

end Pony

namespace Pony

theorem map_cellIdxNat_map_decode (N : Nat) (idxs : List Nat) :
    (idxs.map (decode N)).map (cellIdxNat N) = idxs := by
  rw [List.map_map]
  have h : ∀ i ∈ idxs, (cellIdxNat N ∘ decode N) i = i := fun i _ => cellIdxNat_decode N i
  rw [List.map_congr_left h]
  exact List.map_id' idxs

/-- Minimality of the backtracking recursion: the scan-index sequence of a
successful result is lexicographically no greater than any strictly
increasing in-range index sequence that yields a safe extension of the
current occupancy with exactly `need` cells. -/
theorem bt_min (N : Nat) :
    ∀ (fuel : Nat) (need : Int) (start : Nat) (occ r : List Coord) (js : List Nat),
      start + fuel = N * N →
      bt N fuel need start occ = some r →
      js.Pairwise (· < ·) →
      (∀ j ∈ js, start ≤ j ∧ j < N * N) →
      (js.length : Int) = need →
      SafeExt occ (js.map (decode N)) →
      lexLe ((r.drop occ.length).map (cellIdxNat N)) js := by
  intro fuel
  induction fuel with
  | zero =>
    intro need start occ r js _ hbt _ _ _ _
    simp only [bt] at hbt
    split at hbt
    · obtain rfl : occ = r := by injection hbt
      simp only [List.drop_length, List.map_nil]
      trivial
    · exact absurd hbt (by simp)
  | succ fuel ih =>
    intro need start occ r js hrel hbt hsorted hrange hlen hsafe
    simp only [bt] at hbt
    split at hbt
    · obtain rfl : occ = r := by injection hbt
      simp only [List.drop_length, List.map_nil]
      trivial
    · rename_i hneed
      cases js with
      | nil => exact absurd (by simpa using hlen.symm) hneed
      | cons j js' =>
        have hjr := hrange j (by simp)
        have hlen' : (js'.length : Int) = need - 1 := by
          simp only [List.length_cons] at hlen
          push_cast at hlen ⊢
          omega
        split at hbt
        · rename_i hsafe0
          cases hinner : bt N fuel (need - 1) (start + 1) (occ ++ [decode N start]) with
          | some r0 =>
            rw [hinner] at hbt
            simp only [Option.some.injEq] at hbt
            subst hbt
            obtain ⟨idxs, hs1, _, _, _, _⟩ :=
              bt_sound N fuel (need - 1) (start + 1) (occ ++ [decode N start]) r0 hinner
            have hdrop : r0.drop occ.length = decode N start :: idxs.map (decode N) := by
              rw [hs1, List.append_assoc, List.singleton_append]
              exact List.drop_left occ _
            have hmap : (r0.drop occ.length).map (cellIdxNat N) = start :: idxs := by
              rw [hdrop, List.map_cons, cellIdxNat_decode, map_cellIdxNat_map_decode]
            rw [hmap]
            show start < j ∨ (start = j ∧ lexLe idxs js')
            rcases eq_or_lt_of_le hjr.1 with heq | hlt
            · right
              refine ⟨heq, ?_⟩
              subst heq
              simp only [List.map_cons] at hsafe
              obtain ⟨_, hrest⟩ := hsafe
              have hrange2 : ∀ i ∈ js', start + 1 ≤ i ∧ i < N * N := by
                intro i hi
                have h1 := hrange i (by simp [hi])
                have h2 := List.rel_of_pairwise_cons hsorted hi
                omega
              have hmin := ih (need - 1) (start + 1) (occ ++ [decode N start]) r0 js'
                (by omega) hinner (List.Pairwise.of_cons hsorted) hrange2 hlen' hrest
              have hdrop2 : r0.drop (occ ++ [decode N start]).length = idxs.map (decode N) := by
                rw [hs1]
                exact List.drop_left _ _
              rwa [hdrop2, map_cellIdxNat_map_decode] at hmin
            · exact Or.inl hlt
          | none =>
            rw [hinner] at hbt
            rcases eq_or_lt_of_le hjr.1 with heq | hlt
            · exfalso
              subst heq
              simp only [List.map_cons] at hsafe
              obtain ⟨_, hrest⟩ := hsafe
              have hrange2 : ∀ i ∈ js', start + 1 ≤ i ∧ i < N * N := by
                intro i hi
                have h1 := hrange i (by simp [hi])
                have h2 := List.rel_of_pairwise_cons hsorted hi
                omega
              obtain ⟨r1, hr1⟩ := bt_complete N fuel (need - 1) (start + 1)
                (occ ++ [decode N start]) js' (by omega)
                (List.Pairwise.of_cons hsorted) hrange2 hlen' hrest
              rw [hinner] at hr1
              exact absurd hr1 (by simp)
            · have hrange2 : ∀ i ∈ j :: js', start + 1 ≤ i ∧ i < N * N := by
                intro i hi
                rcases List.mem_cons.mp hi with rfl | hi'
                · exact ⟨hlt, hjr.2⟩
                · have h1 := hrange i (by simp [hi'])
                  have h2 := List.rel_of_pairwise_cons hsorted hi'
                  omega
              exact ih need (start + 1) occ r (j :: js')
                (by omega) hbt hsorted hrange2 hlen hsafe
        · rename_i hsafe0
          rcases eq_or_lt_of_le hjr.1 with heq | hlt
          · exfalso
            subst heq
            simp only [List.map_cons] at hsafe
            obtain ⟨⟨hmem, hatk⟩, _⟩ := hsafe
            exact hsafe0 ((is_safe_iff _ _).mpr ⟨hmem, hatk⟩)
          · have hrange2 : ∀ i ∈ j :: js', start + 1 ≤ i ∧ i < N * N := by
              intro i hi
              rcases List.mem_cons.mp hi with rfl | hi'
              · exact ⟨hlt, hjr.2⟩
              · have h1 := hrange i (by simp [hi'])
                have h2 := List.rel_of_pairwise_cons hsorted hi'
                omega
            exact ih need (start + 1) occ r (j :: js')
              (by omega) hbt hsorted hrange2 hlen hsafe

end Pony

namespace Pony

theorem pairwise_lt_of_le_ne {l : List Nat}
    (h1 : l.Pairwise (· ≤ ·)) (h2 : l.Nodup) : l.Pairwise (· < ·) := by
  refine (h1.and h2).imp ?_
  intro a b hab
  exact lt_of_le_of_ne hab.1 hab.2

/-- Any duplicate-free, in-bounds, pairwise-safe extension of `initial`,
re-ordered into its strictly increasing scan-index sequence, decodes to a
safe extension of `initial` of the same size. -/
theorem sortedIdx_spec {N : Nat} {initial S : List Coord}
    (hN : 0 < N) (hnd : S.Nodup) (hb : ∀ c ∈ S, inBounds N c)
    (hfresh : ∀ c ∈ S, c ∉ initial) (hps : pairwiseSafe (initial ++ S)) :
    (sortedIdx N S).Pairwise (· < ·) ∧ (∀ j ∈ sortedIdx N S, j < N * N) ∧
      (sortedIdx N S).length = S.length ∧
      SafeExt initial ((sortedIdx N S).map (decode N)) := by
  set ks := S.map (cellIdxNat N) with hks
  have hjs0 : sortedIdx N S = List.insertionSort (· ≤ ·) ks := rfl
  rw [hjs0]
  set js := List.insertionSort (· ≤ ·) ks with hjs
  have hperm : List.Perm js ks := List.perm_insertionSort (· ≤ ·) ks
  have hks_nodup : ks.Nodup := by
    refine List.Nodup.map_on ?_ hnd
    intro x hx y hy hxy
    have := decode_cellIdxNat hN (hb x hx)
    rw [← this, hxy, decode_cellIdxNat hN (hb y hy)]
  have hjs_nodup : js.Nodup := (List.Perm.nodup_iff hperm).mpr hks_nodup
  have hjs_le : js.Pairwise (· ≤ ·) := List.sorted_insertionSort (· ≤ ·) ks
  have hjs_lt : js.Pairwise (· < ·) := pairwise_lt_of_le_ne hjs_le hjs_nodup
  have hmapeq : ks.map (decode N) = S := by
    rw [hks, List.map_map]
    have h : ∀ c ∈ S, (decode N ∘ cellIdxNat N) c = c := fun c hc =>
      decode_cellIdxNat hN (hb c hc)
    rw [List.map_congr_left h]
    exact List.map_id' S
  have hpermS : List.Perm (js.map (decode N)) S := by
    rw [← hmapeq]
    exact hperm.map (decode N)
  refine ⟨hjs_lt, ?_, ?_, ?_⟩
  · intro j hj
    have hj' : j ∈ ks := (hperm.mem_iff).mp hj
    obtain ⟨c, hc, rfl⟩ := List.mem_map.mp hj'
    exact cellIdxNat_lt (hb c hc)
  · rw [hperm.length_eq, hks, List.length_map]
  · refine validExt_safeExt (js.map (decode N)) initial ?_ ?_ ?_
    · exact (List.Perm.nodup_iff hpermS).mpr hnd
    · intro c hc
      exact hfresh c (hpermS.mem_iff.mp hc)
    · have hsym : ∀ {x y : Coord}, ¬ attackPair x y → ¬ attackPair y x := by
        intro a b hab hba
        exact hab (attackPair_symm hba)
      have happ : List.Perm (initial ++ js.map (decode N)) (initial ++ S) :=
        List.Perm.append_left initial hpermS
      exact (List.Perm.pairwise_iff hsym happ).mpr hps

end Pony

namespace Pony

theorem place_preserves_good (b : Board) (p : Coord) (h : goodList b.occupied) :
    goodList ((b.place p).occupied) := by
  obtain ⟨hnd, hps⟩ := h
  unfold Board.place
  split
  · rename_i hsafe
    obtain ⟨hmem, hatk⟩ := (is_safe_iff b p).mp hsafe
    constructor
    · rw [List.nodup_append]
      refine ⟨hnd, List.nodup_singleton p, ?_⟩
      intro a ha hb
      simp only [List.mem_singleton] at hb
      subst hb
      exact hmem ha
    · unfold pairwiseSafe at *
      rw [List.pairwise_append]
      refine ⟨hps, by simp, ?_⟩
      intro a ha c hc
      simp only [List.mem_singleton] at hc
      subst hc
      intro hcon
      exact hatk a ha (attackPair_symm hcon)
  · exact ⟨hnd, hps⟩

theorem foldl_place_preserves_good (posl : List Coord) :
    ∀ (b : Board), goodList b.occupied →
      goodList ((posl.foldl Board.place b).occupied) := by
  induction posl with
  | nil => intro b h; exact h
  | cons p rest ih =>
    intro b h
    exact ih (b.place p) (place_preserves_good b p h)

theorem mem_foldl_attackStep (sz : Int) (p : Coord) :
    ∀ (moves : List (Int × Int)) (s : Finset Coord) (q : Coord),
      q ∈ moves.foldl (attackStep sz p) s ↔
        q ∈ s ∨ ∃ d ∈ moves, q = (p.1 + d.1, p.2 + d.2) ∧
          0 ≤ p.1 + d.1 ∧ p.1 + d.1 < sz ∧ 0 ≤ p.2 + d.2 ∧ p.2 + d.2 < sz := by
  intro moves
  induction moves with
  | nil => intro s q; simp
  | cons d rest ih =>
    intro s q
    rw [List.foldl_cons, ih]
    unfold attackStep
    split
    · rename_i hcond
      simp only [Finset.mem_insert, List.mem_cons]
      constructor
      · rintro ((rfl | hq) | ⟨d0, hd0, hrest⟩)
        · exact Or.inr ⟨d, Or.inl rfl, rfl, hcond⟩
        · exact Or.inl hq
        · exact Or.inr ⟨d0, Or.inr hd0, hrest⟩
      · rintro (hq | ⟨d0, (rfl | hd0), hq, hb⟩)
        · exact Or.inl (Or.inr hq)
        · exact Or.inl (Or.inl hq)
        · exact Or.inr ⟨d0, hd0, hq, hb⟩
    · rename_i hcond
      simp only [List.mem_cons]
      constructor
      · rintro (hq | ⟨d0, hd0, hrest⟩)
        · exact Or.inl hq
        · exact Or.inr ⟨d0, Or.inr hd0, hrest⟩
      · rintro (hq | ⟨d0, (rfl | hd0), hq, hb⟩)
        · exact Or.inl hq
        · exact absurd hb hcond
        · exact Or.inr ⟨d0, hd0, hq, hb⟩

theorem mem_attacked_aux (sz : Int) :
    ∀ (l : List Coord) (s : Finset Coord) (q : Coord),
      q ∈ l.foldl (fun acc p => PONY_MOVES.foldl (attackStep sz p) acc) s ↔
        q ∈ s ∨ ∃ p ∈ l, ∃ d ∈ PONY_MOVES, q = (p.1 + d.1, p.2 + d.2) ∧
          0 ≤ p.1 + d.1 ∧ p.1 + d.1 < sz ∧ 0 ≤ p.2 + d.2 ∧ p.2 + d.2 < sz := by
  intro l
  induction l with
  | nil => intro s q; simp
  | cons p rest ih =>
    intro s q
    rw [List.foldl_cons, ih, mem_foldl_attackStep]
    simp only [List.mem_cons]
    constructor
    · rintro ((hq | ⟨d, hd, hrest⟩) | ⟨p0, hp0, hx⟩)
      · exact Or.inl hq
      · exact Or.inr ⟨p, Or.inl rfl, d, hd, hrest⟩
      · exact Or.inr ⟨p0, Or.inr hp0, hx⟩
    · rintro (hq | ⟨p0, (rfl | hp0), hx⟩)
      · exact Or.inl (Or.inl hq)
      · exact Or.inl (Or.inr hx)
      · exact Or.inr ⟨p0, hp0, hx⟩

theorem bt_neg_none (N : Nat) :
    ∀ (fuel : Nat) (need : Int) (start : Nat) (occ : List Coord),
      need < 0 → bt N fuel need start occ = none := by
  intro fuel
  induction fuel with
  | zero =>
    intro need start occ h
    simp only [bt, if_neg (show ¬ need = 0 by omega)]
  | succ fuel ih =>
    intro need start occ h
    simp only [bt, if_neg (show ¬ need = 0 by omega)]
    split
    · rw [ih (need - 1) (start + 1) _ (by omega)]
      exact ih need (start + 1) occ h
    · exact ih need (start + 1) occ h

end Pony

namespace Pony

/-! ### Claim theorems -/

/-- C4: for every board state and position `pos`, `is_safe pos` returns
`false` exactly when `pos` equals an occupied coordinate or some occupied
coordinate lies at unsigned offset in {(1,2),(2,1),(1,3),(3,1)} from
`pos`; in all other cases it returns `true`. -/
theorem is_safe_characterization (b : Board) (pos : Coord) :
    (b.is_safe pos = false ↔
      pos ∈ b.occupied ∨ ∃ q ∈ b.occupied, attackPair pos q) ∧
    (b.is_safe pos = true ↔
      ¬(pos ∈ b.occupied ∨ ∃ q ∈ b.occupied, attackPair pos q)) := by
  constructor
  · exact is_safe_eq_false_iff b pos
  · rw [is_safe_iff]
    constructor
    · rintro ⟨h1, h2⟩ (hm | ⟨q, hq, ha⟩)
      · exact h1 hm
      · exact h2 q hq ha
    · intro h
      push_neg at h
      exact h

/-- C5: `place pos` appends `pos` to the end of the occupied sequence when
`is_safe pos` holds, and leaves the whole board state (size and occupied
sequence) unchanged when it does not; no error is raised in either case
(the embedded function is total). -/
theorem place_appends_iff_safe (b : Board) (pos : Coord) :
    (b.is_safe pos = true →
      b.place pos = Board.mk b.size (b.occupied ++ [pos])) ∧
    (b.is_safe pos = false → b.place pos = b) := by
  obtain ⟨sz, occL⟩ := b
  constructor
  · intro h
    simp [Board.place, h]
  · intro h
    simp [Board.place, h]

/-- C5 witness: on a 2-board with `(0,0)` occupied, placing the safe cell
`(0,1)` appends it, and placing the attacked cell `(1,2)` is a no-op. -/
theorem place_appends_iff_safe_witness :
    (Board.mk 2 [((0 : Int), (0 : Int))]).is_safe ((0 : Int), (1 : Int)) = true ∧
    (Board.mk 2 [((0 : Int), (0 : Int))]).place ((0 : Int), (1 : Int)) =
      Board.mk 2 [((0 : Int), (0 : Int)), ((0 : Int), (1 : Int))] ∧
    (Board.mk 2 [((0 : Int), (0 : Int))]).is_safe ((1 : Int), (2 : Int)) = false ∧
    (Board.mk 2 [((0 : Int), (0 : Int))]).place ((1 : Int), (2 : Int)) =
      Board.mk 2 [((0 : Int), (0 : Int))] :=
  ⟨by decide,
   (place_appends_iff_safe (Board.mk 2 [((0 : Int), (0 : Int))]) ((0 : Int), (1 : Int))).1
     (by decide),
   by decide,
   (place_appends_iff_safe (Board.mk 2 [((0 : Int), (0 : Int))]) ((1 : Int), (2 : Int))).2
     (by decide)⟩

/-- C6: a duplicate-free, pairwise-safe occupied sequence stays
duplicate-free and pairwise-safe after any sequence of `place` operations. -/
theorem place_sequence_invariant (b : Board) (posl : List Coord)
    (h : goodList b.occupied) :
    goodList ((posl.foldl Board.place b).occupied) :=
  foldl_place_preserves_good posl b h

/-- C6 witness: starting from `(0,0)` on a 3-board, placing `(1,2)`
(attacked, refused) and then `(0,1)` (safe, committed) keeps the
invariant. -/
theorem place_sequence_invariant_witness :
    goodList (Board.mk 3 [((0 : Int), (0 : Int))]).occupied ∧
    goodList ((([((1 : Int), (2 : Int)), ((0 : Int), (1 : Int))]).foldl Board.place
      (Board.mk 3 [((0 : Int), (0 : Int))])).occupied) :=
  ⟨by decide,
   place_sequence_invariant (Board.mk 3 [((0 : Int), (0 : Int))])
     [((1 : Int), (2 : Int)), ((0 : Int), (1 : Int))] (by decide)⟩

/-- C7: a cell belongs to `attacked_positions` exactly when it is the
in-bounds target of one signed leap offset from some occupied coordinate;
duplicates collapse because the result is a set, and the computation is a
pure function of the board state. -/
theorem attacked_positions_characterization (b : Board) (q : Coord) :
    q ∈ b.attacked_positions ↔
      ∃ p ∈ b.occupied, ∃ d ∈ PONY_MOVES,
        q = (p.1 + d.1, p.2 + d.2) ∧
        0 ≤ q.1 ∧ q.1 < b.size ∧ 0 ≤ q.2 ∧ q.2 < b.size := by
  unfold Board.attacked_positions
  rw [mem_attacked_aux]
  simp only [Finset.not_mem_empty, false_or]
  constructor
  · rintro ⟨p, hp, d, hd, rfl, hb⟩
    exact ⟨p, hp, d, hd, rfl, hb⟩
  · rintro ⟨p, hp, d, hd, rfl, hb⟩
    exact ⟨p, hp, d, hd, rfl, hb⟩

/-- C8: with zero additional ponies requested, the search immediately
succeeds with the empty list, for any initial placement and board size. -/
theorem solve_zero_returns_empty (initial : List Coord) (N : Nat) :
    find_one_solution initial N 0 = some [] := by
  unfold find_one_solution
  rw [bt_need_zero]
  simp

/-- C9: the search always terminates (the embedded function is total),
returning either the failure value `none` or a complete list of exactly
`L` cells. -/
theorem solve_terminates_shape (initial : List Coord) (N : Nat) (L : Int)
    (hL : 0 ≤ L) :
    find_one_solution initial N L = none ∨
      ∃ R, find_one_solution initial N L = some R ∧ (R.length : Int) = L := by
  cases hfind : find_one_solution initial N L with
  | none => exact Or.inl rfl
  | some R =>
    right
    refine ⟨R, rfl, ?_⟩
    obtain ⟨r, hbt, hR⟩ := (find_some_iff initial N L R).mp hfind
    obtain ⟨idxs, h1, h2, _, _, _⟩ := bt_sound N (N * N) L 0 initial r hbt
    rw [hR, h1, List.drop_left, List.length_map]
    exact h2

/-- C9 witness: on the 1-board with one pony requested, the search
returns a one-cell solution. -/
theorem solve_terminates_shape_witness :
    (0 : Int) ≤ 1 ∧
      (find_one_solution [] 1 1 = none ∨
        ∃ R, find_one_solution [] 1 1 = some R ∧ (R.length : Int) = 1) :=
  ⟨by decide, solve_terminates_shape [] 1 1 (by decide)⟩

/-- C10: for a negative requested count the search terminates and returns
`none` (the depth-0 `need` can never reach 0), instead of failing. -/
theorem solve_negative_returns_none (initial : List Coord) (N : Nat) (L : Int)
    (hL : L < 0) :
    find_one_solution initial N L = none := by
  rw [find_none_iff]
  exact bt_neg_none N (N * N) L 0 initial hL

/-- C10 witness: requesting `-1` ponies on a 2-board returns `none`. -/
theorem solve_negative_returns_none_witness :
    (-1 : Int) < 0 ∧ find_one_solution [] 2 (-1) = none :=
  ⟨by decide, solve_negative_returns_none [] 2 (-1) (by decide)⟩

end Pony

namespace Pony

/-- C1: for every pairwise-safe initial placement, every successful result
`R` of `find_one_solution(initial, N, L)` satisfies: the union of
`initial` and `R` is pairwise-safe, `R` has exactly `L` cells, every cell
of `R` lies within `[0,N) × [0,N)`, and `R` contains no duplicates and no
cell already present in `initial`. -/
theorem solve_success_sound (initial : List Coord) (N : Nat) (L : Int)
    (R : List Coord) (hinit : pairwiseSafe initial)
    (h : find_one_solution initial N L = some R) :
    pairwiseSafe (initial ++ R) ∧ (R.length : Int) = L ∧
      (∀ c ∈ R, inBounds N c) ∧ R.Nodup ∧ ∀ c ∈ R, c ∉ initial := by
  obtain ⟨r, hbt, hR⟩ := (find_some_iff initial N L R).mp h
  obtain ⟨idxs, h1, h2, _, h4, h5⟩ := bt_sound N (N * N) L 0 initial r hbt
  have hRdec : R = idxs.map (decode N) := by
    rw [hR, h1]
    exact List.drop_left _ _
  subst hRdec
  refine ⟨?_, ?_, ?_, ?_, ?_⟩
  · exact safeExt_pairwiseSafe _ _ hinit h5
  · rw [List.length_map]
    exact h2
  · intro c hc
    obtain ⟨i, hi, rfl⟩ := List.mem_map.mp hc
    have := h4 i hi
    exact decode_inBounds (by omega)
  · exact (safeExt_nodup_fresh _ _ h5).1
  · exact (safeExt_nodup_fresh _ _ h5).2

/-- C1 witness: with `(0,0)` pre-placed on a 2-board, the search returns
`[(0,1)]`, which satisfies every clause of the soundness property. -/
theorem solve_success_sound_witness :
    pairwiseSafe [((0 : Int), (0 : Int))] ∧
    find_one_solution [((0 : Int), (0 : Int))] 2 1 = some [((0 : Int), (1 : Int))] ∧
    (pairwiseSafe ([((0 : Int), (0 : Int))] ++ [((0 : Int), (1 : Int))]) ∧
      (([((0 : Int), (1 : Int))] : List Coord).length : Int) = 1 ∧
      (∀ c ∈ [((0 : Int), (1 : Int))], inBounds 2 c) ∧
      ([((0 : Int), (1 : Int))] : List Coord).Nodup ∧
      ∀ c ∈ [((0 : Int), (1 : Int))], c ∉ [((0 : Int), (0 : Int))]) :=
  ⟨by decide, by decide,
   solve_success_sound [((0 : Int), (0 : Int))] 2 1 [((0 : Int), (1 : Int))]
     (by decide) (by decide)⟩

/-- C2: if the search reports `none` for a pairwise-safe, duplicate-free,
in-bounds initial placement and `L ≥ 0`, then no duplicate-free set of
exactly `L` in-bounds cells extends `initial` to a pairwise-safe,
duplicate-free placement. -/
theorem solve_none_complete (initial : List Coord) (N : Nat) (L : Int)
    (hinit : goodList initial) (hbounds : ∀ c ∈ initial, inBounds N c)
    (hL : 0 ≤ L) (h : find_one_solution initial N L = none) :
    ¬ ∃ S : List Coord, (∀ c ∈ S, inBounds N c) ∧ (S.length : Int) = L ∧
        (initial ++ S).Nodup ∧ pairwiseSafe (initial ++ S) := by
  rintro ⟨S, hSb, hSlen, hSnd, hSps⟩
  have hL0 : L ≠ 0 := by
    intro h0
    rw [h0, find_none_iff, bt_need_zero] at h
    exact absurd h (by simp)
  have hN : 0 < N := by
    cases S with
    | nil =>
      exfalso
      simp only [List.length_nil] at hSlen
      exact hL0 (by exact_mod_cast hSlen.symm)
    | cons c rest =>
      have hb0 := hSb c (by simp)
      have h1 := hb0.1
      have h2 := hb0.2.1
      omega
  have hSnodup : S.Nodup := (List.nodup_append.mp hSnd).2.1
  have hfresh : ∀ c ∈ S, c ∉ initial := by
    have hd := (List.nodup_append.mp hSnd).2.2
    intro c hc hcin
    exact hd hcin hc
  obtain ⟨hjs1, hjs2, hjs3, hjs4⟩ := sortedIdx_spec hN hSnodup hSb hfresh hSps
  obtain ⟨r, hr⟩ := bt_complete N (N * N) L 0 initial (sortedIdx N S) (by omega)
    hjs1 (fun j hj => ⟨Nat.zero_le j, hjs2 j hj⟩) (by rw [hjs3]; exact hSlen) hjs4
  rw [find_none_iff] at h
  rw [h] at hr
  exact absurd hr (by simp)

/-- C2 witness: on the 1-board the search for 2 additional ponies reports
`none`, and indeed no 2-cell extension of the empty placement exists. -/
theorem solve_none_complete_witness :
    goodList ([] : List Coord) ∧ (∀ c ∈ ([] : List Coord), inBounds 1 c) ∧
    (0 : Int) ≤ 2 ∧ find_one_solution [] 1 2 = none ∧
    ¬ ∃ S : List Coord, (∀ c ∈ S, inBounds 1 c) ∧ (S.length : Int) = 2 ∧
        (([] : List Coord) ++ S).Nodup ∧ pairwiseSafe (([] : List Coord) ++ S) :=
  ⟨by decide, by simp, by decide, by decide,
   solve_none_complete [] 1 2 (by decide) (by simp) (by decide) (by decide)⟩

/-- C3: every successful result is strictly increasing in the row-major
index `x·N + y`, and its index sequence is lexicographically no greater
than the sorted index sequence of any duplicate-free, in-bounds,
pairwise-safe extension of `initial` by exactly `L` fresh cells: the
result is the lexicographically earliest valid combination under the scan
order. -/
theorem solve_success_lex_earliest (initial : List Coord) (N : Nat) (L : Int)
    (R : List Coord) (h : find_one_solution initial N L = some R) :
    R.Pairwise (fun p q => cellIdx N p < cellIdx N q) ∧
      ∀ S : List Coord, S.Nodup → (∀ c ∈ S, inBounds N c) →
        (S.length : Int) = L → (∀ c ∈ S, c ∉ initial) →
        pairwiseSafe (initial ++ S) →
        lexLe (R.map (cellIdxNat N)) (sortedIdx N S) := by
  obtain ⟨r, hbt, hR⟩ := (find_some_iff initial N L R).mp h
  obtain ⟨idxs, h1, h2, h3, _, _⟩ := bt_sound N (N * N) L 0 initial r hbt
  have hRdec : R = idxs.map (decode N) := by
    rw [hR, h1]
    exact List.drop_left _ _
  constructor
  · rw [hRdec, List.pairwise_map]
    refine h3.imp ?_
    intro a b hab
    rw [cellIdx_decode, cellIdx_decode]
    exact_mod_cast hab
  · intro S hSnd hSb hSlen hfresh hps
    cases S with
    | nil =>
      simp only [List.length_nil] at hSlen
      have hlen0 : idxs.length = 0 := by omega
      have hidxs : idxs = [] := List.length_eq_zero.mp hlen0
      rw [hRdec, hidxs]
      simp only [List.map_nil]
      trivial
    | cons c0 rest =>
      have hN : 0 < N := by
        have hb0 := hSb c0 (by simp)
        have hx1 := hb0.1
        have hx2 := hb0.2.1
        omega
      obtain ⟨hs1, hs2, hs3, hs4⟩ := sortedIdx_spec hN hSnd hSb hfresh hps
      have hmin := bt_min N (N * N) L 0 initial r (sortedIdx N (c0 :: rest))
        (by omega) hbt hs1 (fun j hj => ⟨Nat.zero_le j, hs2 j hj⟩)
        (by rw [hs3]; exact hSlen) hs4
      rw [hR]
      exact hmin

/-- C3 witness: on the empty 2-board with one pony requested the result is
`[(0,0)]`, the lexicographically earliest cell. -/
theorem solve_success_lex_earliest_witness :
    find_one_solution [] 2 1 = some [((0 : Int), (0 : Int))] ∧
    (([((0 : Int), (0 : Int))] : List Coord).Pairwise
        (fun p q => cellIdx 2 p < cellIdx 2 q) ∧
      ∀ S : List Coord, S.Nodup → (∀ c ∈ S, inBounds 2 c) →
        (S.length : Int) = 1 → (∀ c ∈ S, c ∉ ([] : List Coord)) →
        pairwiseSafe (([] : List Coord) ++ S) →
        lexLe (([((0 : Int), (0 : Int))] : List Coord).map (cellIdxNat 2))
          (sortedIdx 2 S)) :=
  ⟨by decide,
   solve_success_lex_earliest [] 2 1 [((0 : Int), (0 : Int))] (by decide)⟩

end Pony
